import Mathlib

/-!
Verification of the caption-timing core of
`src/utility/captions/timed_captions_generator.py`.

The Python module is shallowly embedded here:
  * Python `float` timestamps are modelled as `ℚ` (exact rationals);
    the literal `0.1` becomes `(1 : ℚ) / 10`.
  * A Python `dict` built with strictly increasing tuple keys and iterated
    in insertion order is modelled as an association list.
  * `str.strip()` / `str.split()` are modelled character-wise over `String.data`
    (`Char.isWhitespace` stands in for Python's whitespace classification).
  * Optional dictionary keys become `Option` fields; a word entry that is not
    a `dict` is modelled by the `isDict` flag.
  * The `try/except` wrapper of `getCaptionsWithTime` is modelled with
    `Except`: raised validation errors become `Except.error`, and the public
    wrapper converts any error to the empty list, as the Python handler does.
-/

/-- Python whitespace test used by `str.strip` / `str.split` (approximated by
`Char.isWhitespace`). -/
def pyWhite (c : Char) : Bool := c.isWhitespace

/-- Model of Python `str.strip()`: drop whitespace from both ends. -/
def pyStrip (s : String) : String :=
  String.mk (((s.data.dropWhile pyWhite).reverse.dropWhile pyWhite).reverse)

/-- One step of Python `str.split()` (no separator): accumulate the current
word (reversed) in `acc`, cutting at whitespace runs, discarding empty pieces. -/
def pySplitGo : List Char → List Char → List String
  | acc, [] => if acc = [] then [] else [String.mk acc.reverse]
  | acc, c :: rest =>
    if pyWhite c then
      if acc = [] then pySplitGo [] rest
      else String.mk acc.reverse :: pySplitGo [] rest
    else pySplitGo (c :: acc) rest

/-- Model of Python `str.split()` with no arguments. -/
def pySplit (s : String) : List String := pySplitGo [] s.data

/-- Characters kept by `cleanWord`'s regex `[^\w\s\-_"\'\']` replacement:
word characters (letters/digits/underscore, with `Char.isAlphanum`
approximating Python's Unicode `\w`), whitespace, hyphen, underscore and the
two quote characters. -/
def keepChar (c : Char) : Bool :=
  c.isAlphanum || c = '_' || pyWhite c || c = '-' || c = '"' || c = '\''

/-- `cleanWord` (line 226-227): delete every character outside `keepChar`. -/
def cleanWord (word : String) : String := String.mk (word.data.filter keepChar)

/-- Inner `while` loop of `splitWordsBySize` (lines 165-169): grow `caption`
with following words while the join stays within `maxCaptionSize`, eagerly
breaking once the caption reached `maxCaptionSize / 2` (`float` division,
exact over `ℚ`) and words remain.  Returns the finished caption and the
remaining words. -/
def splitInnerLoop (maxCaptionSize : ℕ) : String → List String → String × List String
  | caption, [] => (caption, [])
  | caption, w :: rest =>
    if (caption ++ " " ++ w).length ≤ maxCaptionSize then
      if (((caption ++ " " ++ w).length : ℚ) ≥ (maxCaptionSize : ℚ) / 2) ∧ rest ≠ [] then
        (caption ++ " " ++ w, rest)
      else splitInnerLoop maxCaptionSize (caption ++ " " ++ w) rest
    else (caption, w :: rest)

/-- Outer `while` loop of `splitWordsBySize`, written with explicit fuel so
that the definition is structural (the fuel `words.length` always suffices,
see `splitGo_fuel_irrelevant`). -/
def splitGo (maxCaptionSize : ℕ) : ℕ → List String → List String
  | _, [] => []
  | 0, w :: rest => w :: rest
  | fuel + 1, w :: rest =>
    let r := splitInnerLoop maxCaptionSize w rest
    r.1 :: splitGo maxCaptionSize fuel r.2

/-- `splitWordsBySize` (lines 159-171). -/
def splitWordsBySize (words : List String) (maxCaptionSize : ℕ) : List String :=
  splitGo maxCaptionSize words.length words

theorem splitInnerLoop_rest_length (m : ℕ) :
    ∀ (ws : List String) (c : String), (splitInnerLoop m c ws).2.length ≤ ws.length := by
  intro ws
  induction ws with
  | nil => intro c; simp [splitInnerLoop]
  | cons w rest ih =>
    intro c
    simp only [splitInnerLoop]
    split
    · split
      · simp
      · exact le_trans (ih _) (Nat.le_succ _)
    · simp

theorem splitGo_fuel_irrelevant (m : ℕ) :
    ∀ (n : ℕ) (ws : List String) (fuel : ℕ), ws.length ≤ n → ws.length ≤ fuel →
      splitGo m fuel ws = splitGo m ws.length ws := by
  intro n
  induction n with
  | zero =>
    intro ws fuel h _
    have : ws = [] := List.eq_nil_of_length_eq_zero (Nat.le_zero.mp h)
    subst this; cases fuel <;> rfl
  | succ n ih =>
    intro ws fuel hn hf
    match ws, fuel with
    | [], fuel => cases fuel <;> rfl
    | w :: rest, 0 => exact absurd hf (by simp)
    | w :: rest, fuel + 1 =>
      simp only [splitGo, List.length_cons]
      have hr : (splitInnerLoop m w rest).2.length ≤ rest.length :=
        splitInnerLoop_rest_length m rest w
      have hn' : rest.length ≤ n := by simpa using hn
      have hf' : rest.length ≤ fuel := by simpa using hf
      rw [ih _ fuel (le_trans hr hn') (le_trans hr hf'),
        ih _ rest.length (le_trans hr hn') hr]

/-- Unfolding equation for `splitWordsBySize` matching the source loop. -/
theorem splitWordsBySize_cons (m : ℕ) (w : String) (rest : List String) :
    splitWordsBySize (w :: rest) m =
      (splitInnerLoop m w rest).1 :: splitWordsBySize (splitInnerLoop m w rest).2 m := by
  have h1 : (splitInnerLoop m w rest).2.length ≤ rest.length :=
    splitInnerLoop_rest_length m rest w
  simp only [splitWordsBySize, List.length_cons, splitGo]
  rw [splitGo_fuel_irrelevant m rest.length _ rest.length h1 h1]

theorem splitWordsBySize_nil (m : ℕ) : splitWordsBySize [] m = [] := rfl

/-- A word entry of a segment's `words` list.  `isDict = false` models a list
element that is not a Python `dict` (skipped at line 195-196); the four
`Option` fields model presence/absence of the corresponding dictionary keys.
Timestamps are already numeric (`float(...)` conversion modelled as `ℚ`). -/
structure WordRec where
  isDict : Bool
  textKey : Option String
  wordKey : Option String
  startKey : Option ℚ
  endKey : Option ℚ
deriving DecidableEq, Repr

/-- The per-word time interval stored in the index (lines 212-215). -/
structure WordTimes where
  start : ℚ
  «end» : ℚ
deriving DecidableEq, Repr

/-- A segment of the transcription result.  Only the `words` and `end` keys
are read by the modelled code paths. -/
structure Segment where
  wordsKey : Option (List WordRec)
  endKey : Option ℚ
deriving DecidableEq, Repr

/-- The transcription result (`whisper_analysis`): a dict with optional
`text` and `segments` keys. -/
structure WhisperAnalysis where
  textKey : Option String
  segmentsKey : Option (List Segment)
deriving DecidableEq, Repr

/-- An entry of the timestamp index: a half-open character range paired with
the word's time interval.  The Python dict keyed by `(start, end)` tuples is
modelled as an association list in insertion order (keys are strictly
increasing by construction, so no key ever collides). -/
abbrev IndexEntry := (ℕ × ℕ) × WordTimes

/-- A produced caption pair `((start_time, end_time), caption_text)`. -/
abbrev CaptionPair := (ℚ × ℚ) × String

/-- Lines 198-203: derive a word's display text, accepting either the `text`
or the `word` key, stripped. -/
def wordDisplayText (w : WordRec) : Option String :=
  match w.textKey with
  | some t => some (pyStrip t)
  | none =>
    match w.wordKey with
    | some t => some (pyStrip t)
    | none => none

/-- Lines 194-216: the inner word loop of `getTimestampMapping`.  Carries the
running character cursor (`index`); skips non-dict entries, words with no
usable text and words missing a timestamp; records
`[cursor, cursor + len) ↦ {start, end}` and advances the cursor by `len + 1`
for each usable word.  Returns the final cursor and the recorded entries. -/
def recordWords : ℕ → List WordRec → ℕ × List IndexEntry
  | cursor, [] => (cursor, [])
  | cursor, w :: ws =>
    if !w.isDict then recordWords cursor ws
    else
      match wordDisplayText w with
      | none => recordWords cursor ws
      | some wt =>
        if wt = "" then recordWords cursor ws
        else
          match w.startKey, w.endKey with
          | some a, some b =>
            let r := recordWords (cursor + wt.length + 1) ws
            (r.1, ((cursor, cursor + wt.length), ⟨a, b⟩) :: r.2)
          | _, _ => recordWords cursor ws

/-- Lines 186-189: the segment loop; a segment with an absent or empty
`words` list is skipped, the cursor carries over between segments. -/
def processSegments : ℕ → List Segment → List IndexEntry
  | _, [] => []
  | cursor, seg :: rest =>
    match seg.wordsKey with
    | none => processSegments cursor rest
    | some [] => processSegments cursor rest
    | some ws =>
      let r := recordWords cursor ws
      r.2 ++ processSegments r.1 rest

/-- `getTimestampMapping` (lines 173-224): empty result when `segments` is
absent, otherwise the records of all segments starting from cursor 0. -/
def getTimestampMapping (wa : WhisperAnalysis) : List IndexEntry :=
  match wa.segmentsKey with
  | none => []
  | some segs => processSegments 0 segs

/-- `timestamps.get(search_type)` (lines 236, 247): dictionary lookup of the
requested field, `none` for any other key. -/
def tsGet (ts : WordTimes) (searchType : String) : Option ℚ :=
  if searchType = "start" then some ts.start
  else if searchType = "end" then some ts.«end» else none

/-- First loop of `interpolateTimeFromDict` (lines 234-236): return the
timestamps of the first range containing `wordPosition`. -/
def firstContaining (wordPosition : ℕ) : List IndexEntry → Option WordTimes
  | [] => none
  | ent :: rest =>
    if ent.1.1 ≤ wordPosition ∧ wordPosition < ent.1.2 then some ent.2
    else firstContaining wordPosition rest

/-- Second loop of `interpolateTimeFromDict` (lines 239-249): track the
closest preceding range; `minDist = none` models `float('inf')`, and an
update happens only on a strict distance improvement. -/
def closestTimeLoop (wordPosition : ℕ) (searchType : String) :
    List IndexEntry → Option ℕ → Option ℚ → Option ℚ
  | [], _, closest => closest
  | ent :: rest, minDist, closest =>
    if ent.1.2 ≤ wordPosition then
      let dist := wordPosition - ent.1.2
      if (match minDist with | none => true | some m => decide (dist < m)) then
        closestTimeLoop wordPosition searchType rest (some dist) (tsGet ent.2 searchType)
      else closestTimeLoop wordPosition searchType rest minDist closest
    else closestTimeLoop wordPosition searchType rest minDist closest

/-- `interpolateTimeFromDict` (lines 229-249). -/
def interpolateTimeFromDict (wordPosition : ℕ) (d : List IndexEntry)
    (searchType : String) : Option ℚ :=
  if d = [] then none
  else
    match firstContaining wordPosition d with
    | some ts => tsGet ts searchType
    | none => closestTimeLoop wordPosition searchType d none none

/-- `'.'`, `'!'` or `'?'`: the lookbehind class of the sentence split regex
`(?<=[.!?]) +` (line 280). -/
def isSentencePunct (c : Char) : Bool := c = '.' || c = '!' || c = '?'

/-- `re.split(r'(?<=[.!?]) +', text)` character-wise: cut at every maximal
run of spaces whose position is preceded by `.`, `!` or `?`; the run itself
is discarded.  `acc` holds the current piece reversed; fuel is the number of
remaining characters (always sufficient, each step consumes at least one). -/
def sentSplitGo : ℕ → List Char → List Char → List (List Char)
  | _, acc, [] => [acc.reverse]
  | 0, acc, rest => [acc.reverse ++ rest]
  | fuel + 1, acc, c :: rest =>
    if c = ' ' && (match acc with | p :: _ => isSentencePunct p | [] => false) then
      acc.reverse :: sentSplitGo fuel [] (rest.dropWhile (fun x => x = ' '))
    else sentSplitGo fuel (c :: acc) rest

/-- Line 280: split `text` into sentences. -/
def sentenceSplit (text : String) : List String :=
  (sentSplitGo text.data.length [] text.data).map String.mk

/-- Lines 279-284: tokenize the stripped text into caption chunks, per mode. -/
def tokenizeText (considerPunctuation : Bool) (text : String) (maxCaptionSize : ℕ) :
    List String :=
  if considerPunctuation then
    (sentenceSplit text).flatMap (fun sen => splitWordsBySize (pySplit sen) maxCaptionSize)
  else splitWordsBySize (pySplit text) maxCaptionSize

/-- Lines 292-300: total duration for the degraded path: the last segment's
`end` value when `segments` is truthy (non-empty) and that value is present
and truthy (non-zero), else the 10.0 default. -/
def totalDurationOf (wa : WhisperAnalysis) : ℚ :=
  match (wa.segmentsKey.getD []).getLast? with
  | some lastSeg =>
    match lastSeg.endKey with
    | some e => if e = 0 then 10 else e
    | none => 10
  | none => 10

/-- Line 302: `total_duration / len(words) if words else 1.0`. -/
def durationPerCaption (wa : WhisperAnalysis) (words : List String) : ℚ :=
  if words ≠ [] then totalDurationOf wa / (words.length : ℚ) else 1

/-- Lines 304-314: the degraded-path loop over `enumerate(words)`.  `i` is the
running enumeration index; chunks whose text is blank, or blank after
cleaning, are skipped without emitting. -/
def degradedLoop (considerPunctuation : Bool) (per : ℚ) : ℕ → List String → List CaptionPair
  | _, [] => []
  | i, c :: rest =>
    if pyStrip c = "" then degradedLoop considerPunctuation per (i + 1) rest
    else
      let startTime := (i : ℚ) * per
      let endTime := ((i : ℚ) + 1) * per
      let ct := if considerPunctuation then c else cleanWord c
      let ct2 := pyStrip ct
      if ct2 = "" then degradedLoop considerPunctuation per (i + 1) rest
      else ((startTime, endTime), ct2) :: degradedLoop considerPunctuation per (i + 1) rest

/-- Lines 320-354: the normal-path loop over `enumerate(words)`.  State:
the text-position cursor, the running `start_time` and the accumulated pairs
(the fallback at lines 336-341 reads the last accumulated pair).  A chunk
blank after stripping is skipped before the cursor advances (lines 322-323);
a chunk blank after cleaning is skipped after it advances (lines 347-353).
The second `end_time is None` guard (lines 344-345) is unreachable —
`end_time` was already given a value in every branch above — and so has no
counterpart here. -/
def normalLoop (d : List IndexEntry) (considerPunctuation : Bool) :
    List (ℕ × String) → ℕ → ℚ → List CaptionPair → List CaptionPair
  | [], _, _, pairs => pairs
  | (i, c0) :: rest, textPosition, startTime, pairs =>
    let c := pyStrip c0
    if c = "" then normalLoop d considerPunctuation rest textPosition startTime pairs
    else
      let textPosition2 := if i = 0 then c.length else textPosition + c.length + 1
      let endTime :=
        match interpolateTimeFromDict textPosition2 d "end" with
        | some v => v
        | none =>
          match pairs.getLast? with
          | some lp => lp.1.2 + (c.length : ℚ) * (1 / 10)
          | none => (c.length : ℚ) * (1 / 10)
      let c2 := if considerPunctuation then c else cleanWord c
      let c3 := pyStrip c2
      if c3 = "" then normalLoop d considerPunctuation rest textPosition2 startTime pairs
      else
        normalLoop d considerPunctuation rest textPosition2 endTime
          (pairs ++ [((startTime, endTime), c3)])

/-- Lines 268-357: the body of `getCaptionsWithTime` after the input checks,
given the stripped non-blank text. -/
def captionsCore (wa : WhisperAnalysis) (maxCaptionSize : ℕ)
    (considerPunctuation : Bool) (text : String) : List CaptionPair :=
  let wordLocationToTime := getTimestampMapping wa
  let words := tokenizeText considerPunctuation text maxCaptionSize
  if wordLocationToTime = [] then
    degradedLoop considerPunctuation (durationPerCaption wa words) 0 words
  else normalLoop wordLocationToTime considerPunctuation words.enum 0 0 []

/-- `getCaptionsWithTime` (lines 251-362) before exception handling: the
validation failures at lines 256-260 raise (`Except.error`); blank text
returns the empty list (lines 262-265); otherwise the core runs on the
stripped text. -/
def getCaptionsWithTimeBody (wa : WhisperAnalysis) (maxCaptionSize : ℕ)
    (considerPunctuation : Bool) : Except String (List CaptionPair) :=
  if wa.textKey = none ∧ wa.segmentsKey = none then
    Except.error "Invalid whisper_analysis"
  else
    match wa.textKey with
    | none => Except.error "No text field in whisper_analysis"
    | some t0 =>
      if t0 = "" ∨ pyStrip t0 = "" then Except.ok []
      else Except.ok (captionsCore wa maxCaptionSize considerPunctuation (pyStrip t0))

/-- `getCaptionsWithTime` as its caller sees it: the `except` handler at
lines 359-362 converts any raised error to the empty list. -/
def getCaptionsWithTime (wa : WhisperAnalysis) (maxCaptionSize : ℕ := 15)
    (considerPunctuation : Bool := false) : List CaptionPair :=
  match getCaptionsWithTimeBody wa maxCaptionSize considerPunctuation with
  | Except.ok l => l
  | Except.error _ => []

theorem length_pos_of_ne_empty {s : String} (h : s ≠ "") : 0 < s.length := by
  cases s with
  | mk l =>
    cases l with
    | nil => exact absurd rfl h
    | cons c cs => simp [String.length]

theorem splitInnerLoop_caption (m : ℕ) :
    ∀ (ws : List String) (c : String),
      (splitInnerLoop m c ws).1 = c ∨ (splitInnerLoop m c ws).1.length ≤ m := by
  intro ws
  induction ws with
  | nil => intro c; exact Or.inl rfl
  | cons w rest ih =>
    intro c
    simp only [splitInnerLoop]
    split
    · rename_i hfit
      split
      · exact Or.inr hfit
      · rcases ih (c ++ " " ++ w) with h | h
        · rw [h]; exact Or.inr hfit
        · exact Or.inr h
    · exact Or.inl rfl

theorem splitInnerLoop_rest_mem (m : ℕ) :
    ∀ (ws : List String) (c x : String), x ∈ (splitInnerLoop m c ws).2 → x ∈ ws := by
  intro ws
  induction ws with
  | nil => intro c x hx; simp [splitInnerLoop] at hx
  | cons w rest ih =>
    intro c x hx
    simp only [splitInnerLoop] at hx
    split at hx
    · split at hx
      · exact List.mem_cons_of_mem w hx
      · exact List.mem_cons_of_mem w (ih _ x hx)
    · exact hx

theorem splitInnerLoop_caption_length (m : ℕ) :
    ∀ (ws : List String) (c : String), c.length ≤ (splitInnerLoop m c ws).1.length := by
  intro ws
  induction ws with
  | nil => intro c; exact le_rfl
  | cons w rest ih =>
    intro c
    have hsp : (" " : String).length = 1 := rfl
    have hgrow : c.length ≤ (c ++ " " ++ w).length := by
      simp only [String.length_append, hsp]; omega
    simp only [splitInnerLoop]
    split
    · split
      · exact hgrow
      · exact le_trans hgrow (ih (c ++ " " ++ w))
    · exact le_rfl

/-- Claim C4: every chunk produced by `splitWordsBySize` has length at most
`maxCaptionSize`, except that a chunk may be a single input word (which is
never split, even when that word alone exceeds the budget). -/
theorem spec_C4 (words : List String) (maxCaptionSize : ℕ) (c : String)
    (hc : c ∈ splitWordsBySize words maxCaptionSize) :
    c.length ≤ maxCaptionSize ∨ c ∈ words := by
  suffices h : ∀ (n : ℕ) (ws : List String), ws.length ≤ n → ∀ c,
      c ∈ splitWordsBySize ws maxCaptionSize → c.length ≤ maxCaptionSize ∨ c ∈ ws from
    h words.length words le_rfl c hc
  intro n
  induction n with
  | zero =>
    intro ws hlen c hc
    have : ws = [] := List.eq_nil_of_length_eq_zero (Nat.le_zero.mp hlen)
    subst this
    simp [splitWordsBySize_nil] at hc
  | succ n ih =>
    intro ws hlen c hc
    match ws with
    | [] => simp [splitWordsBySize_nil] at hc
    | w :: rest =>
      rw [splitWordsBySize_cons] at hc
      rcases List.mem_cons.mp hc with hc | hc
      · subst hc
        rcases splitInnerLoop_caption maxCaptionSize rest w with h | h
        · rw [h]; exact Or.inr (List.mem_cons_self w rest)
        · exact Or.inl h
      · have hr : (splitInnerLoop maxCaptionSize w rest).2.length ≤ n :=
          le_trans (splitInnerLoop_rest_length maxCaptionSize rest w) (by simpa using hlen)
        rcases ih _ hr c hc with h | h
        · exact Or.inl h
        · exact Or.inr (List.mem_cons_of_mem w
            (splitInnerLoop_rest_mem maxCaptionSize rest w c h))

/-- Witness for C4 at a concrete input: the single word longer than the
budget becomes its own chunk. -/
theorem spec_C4_witness :
    ("hello" : String).length ≤ 3 ∨ ("hello" : String) ∈ [ "hello" ] :=
  spec_C4 [ "hello" ] 3 "hello" (by decide)

/-- Claim C8: `cleanWord` is idempotent — it filters characters by a fixed
predicate, so filtering twice equals filtering once. -/
theorem spec_C8 (s : String) : cleanWord (cleanWord s) = cleanWord s := by
  apply String.ext
  show (s.data.filter keepChar).filter keepChar = s.data.filter keepChar
  simp [List.filter_filter]

/-- Python's single-space join of a word list, used to state what
`splitWordsBySize` preserves. -/
def joinWords : List String → String
  | [] => ""
  | [w] => w
  | w :: ws => w ++ " " ++ joinWords ws

theorem joinWords_cons_cons (a b : String) (l : List String) :
    joinWords (a :: b :: l) = a ++ " " ++ joinWords (b :: l) := rfl

theorem joinWords_glue (a b : String) :
    ∀ (ws : List String), joinWords ((a ++ " " ++ b) :: ws) = a ++ " " ++ joinWords (b :: ws) := by
  intro ws
  cases ws with
  | nil => rfl
  | cons x xs => simp [joinWords_cons_cons, String.append_assoc]

theorem joinWords_congr (c : String) {l l' : List String}
    (h : joinWords l = joinWords l') (he : l = [] ↔ l' = []) :
    joinWords (c :: l) = joinWords (c :: l') := by
  cases l with
  | nil =>
    have : l' = [] := he.mp rfl
    subst this; rfl
  | cons x xs =>
    cases l' with
    | nil => exact absurd (he.mpr rfl) (by simp)
    | cons y ys => rw [joinWords_cons_cons, joinWords_cons_cons, h]

theorem splitInnerLoop_join (m : ℕ) :
    ∀ (ws : List String) (c : String),
      joinWords ((splitInnerLoop m c ws).1 :: (splitInnerLoop m c ws).2) = joinWords (c :: ws) := by
  intro ws
  induction ws with
  | nil => intro c; rfl
  | cons w rest ih =>
    intro c
    simp only [splitInnerLoop]
    split
    · split
      · exact joinWords_glue c w rest
      · rw [ih (c ++ " " ++ w), joinWords_glue c w rest]; rfl
    · rfl

theorem splitWordsBySize_eq_nil_iff (ws : List String) (m : ℕ) :
    splitWordsBySize ws m = [] ↔ ws = [] := by
  cases ws with
  | nil => simp [splitWordsBySize_nil]
  | cons w rest => simp [splitWordsBySize_cons]

/-- Claim C10 (join half): rejoining the chunks with single spaces recovers
the single-space join of the input words, and (given non-empty input words)
every chunk is non-empty. -/
theorem spec_C10 (words : List String) (maxCaptionSize : ℕ)
    (h : ∀ w ∈ words, w ≠ "") :
    joinWords (splitWordsBySize words maxCaptionSize) = joinWords words ∧
      ∀ c ∈ splitWordsBySize words maxCaptionSize, c ≠ "" := by
  constructor
  · suffices hj : ∀ (n : ℕ) (ws : List String), ws.length ≤ n →
        joinWords (splitWordsBySize ws maxCaptionSize) = joinWords ws from
      hj words.length words le_rfl
    intro n
    induction n with
    | zero =>
      intro ws hlen
      have : ws = [] := List.eq_nil_of_length_eq_zero (Nat.le_zero.mp hlen)
      subst this; rfl
    | succ n ih =>
      intro ws hlen
      match ws with
      | [] => rfl
      | w :: rest =>
        rw [splitWordsBySize_cons]
        have hr : (splitInnerLoop maxCaptionSize w rest).2.length ≤ n :=
          le_trans (splitInnerLoop_rest_length maxCaptionSize rest w) (by simpa using hlen)
        have h1 := ih _ hr
        have h2 : splitWordsBySize (splitInnerLoop maxCaptionSize w rest).2 maxCaptionSize = []
            ↔ (splitInnerLoop maxCaptionSize w rest).2 = [] :=
          splitWordsBySize_eq_nil_iff _ _
        exact (joinWords_congr _ h1 h2).trans (splitInnerLoop_join maxCaptionSize rest w)
  · intro c hc
    suffices hlen : 0 < c.length by
      intro hceq
      rw [hceq] at hlen
      simp at hlen
    suffices hne : ∀ (n : ℕ) (ws : List String), ws.length ≤ n → (∀ w ∈ ws, w ≠ "") →
        ∀ c ∈ splitWordsBySize ws maxCaptionSize, 0 < c.length from
      hne words.length words le_rfl h c hc
    intro n
    induction n with
    | zero =>
      intro ws hlen _ c hc
      have : ws = [] := List.eq_nil_of_length_eq_zero (Nat.le_zero.mp hlen)
      subst this
      simp [splitWordsBySize_nil] at hc
    | succ n ih =>
      intro ws hlen hne c hc
      match ws with
      | [] => simp [splitWordsBySize_nil] at hc
      | w :: rest =>
        rw [splitWordsBySize_cons] at hc
        rcases List.mem_cons.mp hc with hc | hc
        · subst hc
          exact lt_of_lt_of_le
            (length_pos_of_ne_empty (hne w (List.mem_cons_self w rest)))
            (splitInnerLoop_caption_length maxCaptionSize rest w)
        · have hr : (splitInnerLoop maxCaptionSize w rest).2.length ≤ n :=
            le_trans (splitInnerLoop_rest_length maxCaptionSize rest w) (by simpa using hlen)
          exact ih _ hr
            (fun x hx => hne x (List.mem_cons_of_mem w
              (splitInnerLoop_rest_mem maxCaptionSize rest w x hx))) c hc

/-- Witness for C10 at a concrete input. -/
theorem spec_C10_witness :
    joinWords (splitWordsBySize [ "ab", "cd", "ef" ] 5) = joinWords [ "ab", "cd", "ef" ] ∧
      ∀ c ∈ splitWordsBySize [ "ab", "cd", "ef" ] 5, c ≠ "" :=
  spec_C10 [ "ab", "cd", "ef" ] 5 (by decide)

/-- Claim C7: blank input text (absent, empty, or whitespace-only) yields the
empty caption sequence regardless of segment contents; and every raised
validation error is converted by the handler into the empty sequence, so the
caller never observes an error. -/
theorem spec_C7 :
    (∀ (wa : WhisperAnalysis) (m : ℕ) (cp : Bool),
        (wa.textKey = none ∨ ∃ t, wa.textKey = some t ∧ pyStrip t = "") →
        getCaptionsWithTime wa m cp = []) ∧
    (∀ (wa : WhisperAnalysis) (m : ℕ) (cp : Bool) (e : String),
        getCaptionsWithTimeBody wa m cp = Except.error e →
        getCaptionsWithTime wa m cp = []) := by
  constructor
  · intro wa m cp h
    rcases h with h | ⟨t, ht, hs⟩
    · by_cases hc : wa.segmentsKey = none <;>
        simp [getCaptionsWithTime, getCaptionsWithTimeBody, h, hc]
    · simp [getCaptionsWithTime, getCaptionsWithTimeBody, ht, hs]
  · intro wa m cp e h
    simp only [getCaptionsWithTime, h]

/-- Witness for C7: the empty transcription dict produces no captions. -/
theorem spec_C7_witness :
    getCaptionsWithTime ⟨none, none⟩ 15 false = [] :=
  spec_C7.1 ⟨none, none⟩ 15 false (Or.inl rfl)

def exHello : String := "Hello"

def exWorld : String := "world"

def exHelloWorld : String := "Hello world"

def exWordViaWordKey : WordRec := ⟨true, none, some exWorld, some 1, some 2⟩

/-- Claim C6: the index builder records, for each usable word, the half-open
character range `[cursor, cursor + len)` mapped to the word's interval and
advances the cursor by `len + 1`.  A usable word is one whose display text —
taken from either the `text` or the `word` key, per `wordDisplayText` — is
non-empty and whose two timestamps are present.  In particular the
`["Hello", "world"]` transcription (here with the first word under the
`text` key and the second under the `word` key) maps `[0,5)` to the first
word's interval and `[6,11)` to the second's. -/
theorem spec_C6 :
    (∀ (cursor : ℕ) (w : WordRec) (ws : List WordRec) (wt : String) (a b : ℚ),
        w.isDict = true → wordDisplayText w = some wt → wt ≠ "" →
        w.startKey = some a → w.endKey = some b →
        recordWords cursor (w :: ws) =
          ((recordWords (cursor + wt.length + 1) ws).1,
            ((cursor, cursor + wt.length), ⟨a, b⟩) ::
              (recordWords (cursor + wt.length + 1) ws).2)) ∧
    (∀ s1 e1 s2 e2 : ℚ,
        getTimestampMapping
            ⟨some exHelloWorld,
              some [⟨some [⟨true, some exHello, none, some s1, some e1⟩,
                ⟨true, none, some exWorld, some s2, some e2⟩], some e2⟩]⟩ =
          [((0, 5), ⟨s1, e1⟩), ((6, 11), ⟨s2, e2⟩)]) := by
  constructor
  · intro cursor w ws wt a b hd hwdt hne hs he
    simp only [recordWords, hd, Bool.not_true, Bool.false_eq_true, if_false,
      hwdt, if_neg hne, hs, he]
  · intro s1 e1 s2 e2
    rfl

/-- Witness for C6's general record equation at a concrete usable word whose
text comes from the `word` key only. -/
theorem spec_C6_witness :
    recordWords 0 [ exWordViaWordKey ] =
      ((recordWords (0 + exWorld.length + 1) []).1,
        ((0, 0 + exWorld.length), ⟨1, 2⟩) ::
          (recordWords (0 + exWorld.length + 1) []).2) :=
  spec_C6.1 0 exWordViaWordKey [] exWorld 1 2 rfl (by decide) (by decide) rfl rfl

/-- The requested field of a recorded interval, for a valid `searchType`. -/
def fieldOf (ts : WordTimes) (st : String) : ℚ :=
  if st = "start" then ts.start else ts.«end»

theorem tsGet_eq_fieldOf (ts : WordTimes) (st : String)
    (hst : st = "start" ∨ st = "end") : tsGet ts st = some (fieldOf ts st) := by
  rcases hst with h | h <;> subst h <;> rfl

theorem firstContaining_eq_none_iff (p : ℕ) :
    ∀ d : List IndexEntry,
      firstContaining p d = none ↔ ∀ ent ∈ d, ¬(ent.1.1 ≤ p ∧ p < ent.1.2) := by
  intro d
  induction d with
  | nil => simp [firstContaining]
  | cons ent rest ih =>
    constructor
    · intro hn ent' hm'
      simp only [firstContaining] at hn
      split at hn
      · exact absurd hn (by simp)
      · rcases List.mem_cons.mp hm' with h | h
        · subst h; assumption
        · exact ih.mp hn ent' h
    · intro hall
      simp only [firstContaining]
      rw [if_neg (hall ent (List.mem_cons_self ent rest))]
      exact ih.mpr (fun e he => hall e (List.mem_cons_of_mem ent he))

theorem firstContaining_eq_some (p : ℕ) :
    ∀ (d : List IndexEntry) (ts : WordTimes), firstContaining p d = some ts →
      ∃ ent ∈ d, (ent.1.1 ≤ p ∧ p < ent.1.2) ∧ ent.2 = ts := by
  intro d
  induction d with
  | nil => intro ts h; simp [firstContaining] at h
  | cons ent rest ih =>
    intro ts h
    by_cases hc : ent.1.1 ≤ p ∧ p < ent.1.2
    · refine ⟨ent, List.mem_cons_self ent rest, hc, ?_⟩
      simp [firstContaining, hc] at h
      exact h
    · simp only [firstContaining, if_neg hc] at h
      obtain ⟨ent', hm, hc', he⟩ := ih ts h
      exact ⟨ent', List.mem_cons_of_mem ent hm, hc', he⟩

/-- Full behaviour of the nearest-preceding loop: either no candidate beats
the incoming best distance and the incoming `closest` is returned, or the
result is the field of a candidate that beats the incoming best distance and
is minimal among all candidates of the list. -/
theorem closestTimeLoop_spec (p : ℕ) (st : String) :
    ∀ (d : List IndexEntry) (md : Option ℕ) (cl : Option ℚ),
      (closestTimeLoop p st d md cl = cl ∧
        ∀ ent ∈ d, ent.1.2 ≤ p → ∃ m, md = some m ∧ m ≤ p - ent.1.2) ∨
      (∃ ent ∈ d, ent.1.2 ≤ p ∧
        closestTimeLoop p st d md cl = tsGet ent.2 st ∧
        (∀ m, md = some m → p - ent.1.2 < m) ∧
        (∀ ent' ∈ d, ent'.1.2 ≤ p → p - ent.1.2 ≤ p - ent'.1.2)) := by
  intro d
  induction d with
  | nil =>
    intro md cl
    exact Or.inl ⟨rfl, by simp⟩
  | cons ent rest ih =>
    intro md cl
    by_cases hq : ent.1.2 ≤ p
    · have hbeat : ∀ (m : ℕ), md = some m → p - ent.1.2 < m →
          closestTimeLoop p st (ent :: rest) md cl =
            closestTimeLoop p st rest (some (p - ent.1.2)) (tsGet ent.2 st) := by
        intro m hm hlt
        subst hm
        simp [closestTimeLoop, hq, hlt]
      by_cases hup : (match md with
          | none => True
          | some m => p - ent.1.2 < m)
      · have hloop : closestTimeLoop p st (ent :: rest) md cl =
            closestTimeLoop p st rest (some (p - ent.1.2)) (tsGet ent.2 st) := by
          match md with
          | none => simp [closestTimeLoop, hq]
          | some m => exact hbeat m rfl hup
        rcases ih (some (p - ent.1.2)) (tsGet ent.2 st) with ⟨heq, hall⟩ | hfound
        · refine Or.inr ⟨ent, List.mem_cons_self ent rest, hq, hloop.trans heq, ?_, ?_⟩
          · intro m hm
            match md with
            | none => cases hm
            | some m' =>
              cases hm
              exact hup
          · intro ent' hm' hq'
            rcases List.mem_cons.mp hm' with h | h
            · subst h; exact le_rfl
            · obtain ⟨m, hm, hle⟩ := hall ent' h hq'
              cases hm
              exact hle
        · obtain ⟨ent', hm', hq', heq', hbeats', hmin'⟩ := hfound
          refine Or.inr ⟨ent', List.mem_cons_of_mem ent hm', hq', hloop.trans heq', ?_, ?_⟩
          · intro m hm
            have hlt : p - ent'.1.2 < p - ent.1.2 := hbeats' (p - ent.1.2) rfl
            match md with
            | none => cases hm
            | some m' =>
              cases hm
              exact lt_trans hlt hup
          · intro ent'' hm'' hq''
            rcases List.mem_cons.mp hm'' with h | h
            · subst h
              exact le_of_lt (hbeats' (p - ent''.1.2) rfl)
            · exact hmin' ent'' h hq''
      · obtain ⟨m, hm⟩ : ∃ m, md = some m := by
          match md with
          | none => exact absurd trivial hup
          | some m' => exact ⟨m', rfl⟩
        subst hm
        have hnlt : ¬(p - ent.1.2 < m) := hup
        have hloop : closestTimeLoop p st (ent :: rest) (some m) cl =
            closestTimeLoop p st rest (some m) cl := by
          simp [closestTimeLoop, hq, hnlt]
        rcases ih (some m) cl with ⟨heq, hall⟩ | hfound
        · refine Or.inl ⟨hloop.trans heq, ?_⟩
          intro ent' hm' hq'
          rcases List.mem_cons.mp hm' with h | h
          · subst h
            exact ⟨m, rfl, Nat.le_of_not_lt hnlt⟩
          · exact hall ent' h hq'
        · obtain ⟨ent', hm', hq', heq', hbeats', hmin'⟩ := hfound
          refine Or.inr ⟨ent', List.mem_cons_of_mem ent hm', hq', hloop.trans heq', hbeats', ?_⟩
          intro ent'' hm'' hq''
          rcases List.mem_cons.mp hm'' with h | h
          · subst h
            exact le_trans (le_of_lt (hbeats' m rfl)) (Nat.le_of_not_lt hnlt)
          · exact hmin' ent'' h hq''
    · have hloop : closestTimeLoop p st (ent :: rest) md cl =
          closestTimeLoop p st rest md cl := by
        simp [closestTimeLoop, hq]
      rcases ih md cl with ⟨heq, hall⟩ | hfound
      · refine Or.inl ⟨hloop.trans heq, ?_⟩
        intro ent' hm' hq'
        rcases List.mem_cons.mp hm' with h | h
        · subst h; exact absurd hq' hq
        · exact hall ent' h hq'
      · obtain ⟨ent', hm', hq', heq', hbeats', hmin'⟩ := hfound
        refine Or.inr ⟨ent', List.mem_cons_of_mem ent hm', hq', hloop.trans heq', hbeats', ?_⟩
        intro ent'' hm'' hq''
        rcases List.mem_cons.mp hm'' with h | h
        · subst h; exact absurd hq'' hq
        · exact hmin' ent'' h hq''

/-- Claim C5: `interpolateTimeFromDict` returns the requested field of a
containing range when one exists; otherwise the field of a range whose end
precedes the position at minimal distance; and `none` when the index is
empty or no range satisfies either phase. -/
theorem spec_C5 (p : ℕ) (d : List IndexEntry) (st : String)
    (hst : st = "start" ∨ st = "end") :
    (d = [] → interpolateTimeFromDict p d st = none) ∧
    ((∃ ent ∈ d, ent.1.1 ≤ p ∧ p < ent.1.2) →
      ∃ ent ∈ d, (ent.1.1 ≤ p ∧ p < ent.1.2) ∧
        interpolateTimeFromDict p d st = some (fieldOf ent.2 st)) ∧
    ((∀ ent ∈ d, ¬(ent.1.1 ≤ p ∧ p < ent.1.2)) → (∃ ent ∈ d, ent.1.2 ≤ p) →
      ∃ ent ∈ d, ent.1.2 ≤ p ∧
        interpolateTimeFromDict p d st = some (fieldOf ent.2 st) ∧
        ∀ ent' ∈ d, ent'.1.2 ≤ p → p - ent.1.2 ≤ p - ent'.1.2) ∧
    ((∀ ent ∈ d, ¬(ent.1.1 ≤ p ∧ p < ent.1.2)) → (∀ ent ∈ d, ¬ ent.1.2 ≤ p) →
      interpolateTimeFromDict p d st = none) := by
  refine ⟨?_, ?_, ?_, ?_⟩
  · intro h
    subst h
    rfl
  · intro ⟨ent, hm, hc⟩
    have hne : d ≠ [] := by
      intro h
      subst h
      simp at hm
    cases hfc : firstContaining p d with
    | none =>
      exact absurd hc ((firstContaining_eq_none_iff p d).mp hfc ent hm)
    | some ts =>
      obtain ⟨ent', hm', hc', he'⟩ := firstContaining_eq_some p d ts hfc
      refine ⟨ent', hm', hc', ?_⟩
      rw [interpolateTimeFromDict, if_neg hne, hfc]
      show tsGet ts st = some (fieldOf ent'.2 st)
      rw [← he']
      exact tsGet_eq_fieldOf ent'.2 st hst
  · intro hnone ⟨ent, hm, hq⟩
    have hne : d ≠ [] := by
      intro h
      subst h
      simp at hm
    have hfc : firstContaining p d = none := (firstContaining_eq_none_iff p d).mpr hnone
    rw [interpolateTimeFromDict, if_neg hne, hfc]
    rcases closestTimeLoop_spec p st d none none with ⟨_, hall⟩ | hfound
    · obtain ⟨m, hm', _⟩ := hall ent hm hq
      cases hm'
    · obtain ⟨ent', hm', hq', heq', _, hmin'⟩ := hfound
      refine ⟨ent', hm', hq', ?_, hmin'⟩
      rw [heq']
      exact tsGet_eq_fieldOf ent'.2 st hst
  · intro hnone hnoq
    by_cases hne : d = []
    · subst hne
      rfl
    · have hfc : firstContaining p d = none := (firstContaining_eq_none_iff p d).mpr hnone
      rw [interpolateTimeFromDict, if_neg hne, hfc]
      rcases closestTimeLoop_spec p st d none none with ⟨heq, _⟩ | hfound
      · exact heq
      · obtain ⟨ent', hm', hq', _, _, _⟩ := hfound
        exact absurd hq' (hnoq ent' hm')

def exD5 : List IndexEntry := [((0, 5), ⟨0, 1⟩)]

def fieldEndStr : String := "end"

/-- Witness for C5: the spec's own example index — containment at position 3
and nearest-preceding fallback at position 10. -/
theorem spec_C5_witness :
    (∃ ent ∈ exD5, (ent.1.1 ≤ 3 ∧ 3 < ent.1.2) ∧
        interpolateTimeFromDict 3 exD5 fieldEndStr = some (fieldOf ent.2 fieldEndStr)) ∧
    (∃ ent ∈ exD5, ent.1.2 ≤ 10 ∧
        interpolateTimeFromDict 10 exD5 fieldEndStr = some (fieldOf ent.2 fieldEndStr) ∧
        ∀ ent' ∈ exD5, ent'.1.2 ≤ 10 → 10 - ent.1.2 ≤ 10 - ent'.1.2) :=
  ⟨(spec_C5 3 exD5 fieldEndStr (Or.inr rfl)).2.1 ⟨((0, 5), ⟨0, 1⟩), by decide, by decide⟩,
    (spec_C5 10 exD5 fieldEndStr (Or.inr rfl)).2.2.1 (by decide)
      ⟨((0, 5), ⟨0, 1⟩), by decide, by decide⟩⟩

/-- Case split on the wrapper: either an early-return/handled-error empty
result, or the core runs on the stripped non-blank text. -/
theorem getCaptionsWithTime_cases (wa : WhisperAnalysis) (m : ℕ) (cp : Bool) :
    getCaptionsWithTime wa m cp = [] ∨
    ∃ t, wa.textKey = some t ∧ pyStrip t ≠ "" ∧
      getCaptionsWithTime wa m cp = captionsCore wa m cp (pyStrip t) := by
  unfold getCaptionsWithTime getCaptionsWithTimeBody
  by_cases h0 : wa.textKey = none ∧ wa.segmentsKey = none
  · rw [if_pos h0]
    exact Or.inl rfl
  · rw [if_neg h0]
    cases ht : wa.textKey with
    | none => exact Or.inl rfl
    | some t =>
      dsimp only
      by_cases hb : t = "" ∨ pyStrip t = ""
      · rw [if_pos hb]
        exact Or.inl rfl
      · rw [if_neg hb]
        push_neg at hb
        exact Or.inr ⟨t, rfl, hb.2, rfl⟩

/-- Contiguity of a caption sequence starting from time `s`: each entry
starts exactly where declared and the next entry starts at its end. -/
def ContigFrom : ℚ → List CaptionPair → Prop
  | _, [] => True
  | s, ent :: rest => ent.1.1 = s ∧ ContigFrom ent.1.2 rest

/-- The end of the last accumulated pair, defaulting to `z`. -/
def lastEndD (z : ℚ) (l : List CaptionPair) : ℚ :=
  match l.getLast? with
  | some lp => lp.1.2
  | none => z

theorem lastEndD_cons (z : ℚ) (x : CaptionPair) (xs : List CaptionPair) :
    lastEndD z (x :: xs) = lastEndD x.1.2 xs := by
  cases xs <;> simp [lastEndD, List.getLast?]

theorem lastEndD_concat (z : ℚ) (l : List CaptionPair) (x : CaptionPair) :
    lastEndD z (l ++ [x]) = x.1.2 := by
  simp [lastEndD, List.getLast?_concat]

theorem contigFrom_concat (e : ℚ) (t : String) :
    ∀ (acc : List CaptionPair) (z s : ℚ), ContigFrom z acc → lastEndD z acc = s →
      ContigFrom z (acc ++ [((s, e), t)]) := by
  intro acc
  induction acc with
  | nil =>
    intro z s _ hl
    simp only [lastEndD, List.getLast?] at hl
    exact ⟨hl.symm, trivial⟩
  | cons x xs ih =>
    intro z s hc hl
    rw [lastEndD_cons] at hl
    exact ⟨hc.1, ih x.1.2 s hc.2 hl⟩

theorem normalLoop_contig (d : List IndexEntry) (cp : Bool) :
    ∀ (items : List (ℕ × String)) (pos : ℕ) (s z : ℚ) (acc : List CaptionPair),
      ContigFrom z acc → lastEndD z acc = s →
      ContigFrom z (normalLoop d cp items pos s acc) := by
  intro items
  induction items with
  | nil =>
    intro pos s z acc hc _
    exact hc
  | cons it rest ih =>
    obtain ⟨i, c0⟩ := it
    intro pos s z acc hc hl
    simp only [normalLoop]
    by_cases h1 : pyStrip c0 = ""
    · rw [if_pos h1]
      exact ih pos s z acc hc hl
    · rw [if_neg h1]
      by_cases h2 : pyStrip (if cp then pyStrip c0 else cleanWord (pyStrip c0)) = ""
      · rw [if_pos h2]
        exact ih _ s z acc hc hl
      · rw [if_neg h2]
        apply ih
        · exact contigFrom_concat _ _ acc z s hc hl
        · exact lastEndD_concat z acc _

/-- Claim C3: on the normal (non-degraded) path — a non-empty time index —
the output is contiguous: the first emitted entry starts at 0 and each entry
starts at the previous entry's end. -/
theorem spec_C3 (wa : WhisperAnalysis) (m : ℕ) (cp : Bool)
    (h : getTimestampMapping wa ≠ []) :
    ContigFrom 0 (getCaptionsWithTime wa m cp) := by
  rcases getCaptionsWithTime_cases wa m cp with h0 | ⟨t, _, _, heq⟩
  · rw [h0]
    trivial
  · rw [heq]
    simp only [captionsCore]
    rw [if_neg h]
    exact normalLoop_contig _ cp _ 0 0 0 [] trivial rfl

def exWaHW : WhisperAnalysis :=
  ⟨some exHelloWorld,
    some [⟨some [⟨true, some exHello, none, some 0, some 1⟩,
      ⟨true, some exWorld, none, some 1, some 2⟩], some 2⟩]⟩

/-- Witness for C3 at a concrete two-word transcription. -/
theorem spec_C3_witness :
    getCaptionsWithTime exWaHW 15 false = [((0, 2), exHelloWorld)] ∧
      ContigFrom 0 (getCaptionsWithTime exWaHW 15 false) :=
  ⟨by with_unfolding_all decide, spec_C3 exWaHW 15 false (by decide)⟩

theorem degradedLoop_text_ne (cp : Bool) (per : ℚ) :
    ∀ (ws : List String) (i : ℕ) (ent : CaptionPair),
      ent ∈ degradedLoop cp per i ws → ent.2 ≠ "" := by
  intro ws
  induction ws with
  | nil =>
    intro i ent h
    simp [degradedLoop] at h
  | cons c rest ih =>
    intro i ent h
    simp only [degradedLoop] at h
    by_cases h1 : pyStrip c = ""
    · rw [if_pos h1] at h
      exact ih _ ent h
    · rw [if_neg h1] at h
      by_cases h2 : pyStrip (if cp then c else cleanWord c) = ""
      · rw [if_pos h2] at h
        exact ih _ ent h
      · rw [if_neg h2] at h
        rcases List.mem_cons.mp h with he | he
        · subst he
          exact h2
        · exact ih _ ent he

theorem normalLoop_text_ne (d : List IndexEntry) (cp : Bool) :
    ∀ (items : List (ℕ × String)) (pos : ℕ) (s : ℚ) (acc : List CaptionPair),
      (∀ ent ∈ acc, ent.2 ≠ "") →
      ∀ ent ∈ normalLoop d cp items pos s acc, ent.2 ≠ "" := by
  intro items
  induction items with
  | nil =>
    intro pos s acc hacc ent h
    exact hacc ent h
  | cons it rest ih =>
    obtain ⟨i, c0⟩ := it
    intro pos s acc hacc ent h
    simp only [normalLoop] at h
    by_cases h1 : pyStrip c0 = ""
    · rw [if_pos h1] at h
      exact ih pos s acc hacc ent h
    · rw [if_neg h1] at h
      by_cases h2 : pyStrip (if cp then pyStrip c0 else cleanWord (pyStrip c0)) = ""
      · rw [if_pos h2] at h
        exact ih _ s acc hacc ent h
      · rw [if_neg h2] at h
        refine ih _ _ _ ?_ ent h
        intro ent' h'
        rcases List.mem_append.mp h' with hl | hr
        · exact hacc ent' hl
        · rcases List.mem_singleton.mp hr with he
          subst he
          exact h2

/-- Claim C9: on both the degraded path and the normal path, no emitted
caption entry has empty text — the cleaned, stripped text is checked before
each append. -/
theorem spec_C9 (wa : WhisperAnalysis) (m : ℕ) (cp : Bool) (ent : CaptionPair)
    (h : ent ∈ getCaptionsWithTime wa m cp) : ent.2 ≠ "" := by
  rcases getCaptionsWithTime_cases wa m cp with h0 | ⟨t, _, _, heq⟩
  · rw [h0] at h
    simp at h
  · rw [heq] at h
    simp only [captionsCore] at h
    by_cases hd : getTimestampMapping wa = []
    · rw [if_pos hd] at h
      exact degradedLoop_text_ne cp _ _ 0 ent h
    · rw [if_neg hd] at h
      exact normalLoop_text_ne (getTimestampMapping wa) cp _ 0 0 [] (by simp) ent h

def exHiThere : String := "hi there"

def exWaDeg : WhisperAnalysis := ⟨some exHiThere, some [⟨some [], some 5⟩]⟩

/-- Witness for C9: the entry emitted for a degraded-path input has
non-empty text. -/
theorem spec_C9_witness : exHiThere ≠ "" :=
  spec_C9 exWaDeg 15 false ((0, 5), exHiThere) (by with_unfolding_all decide)

theorem string_mk_data (s : String) : String.mk s.data = s := by
  cases s
  rfl

theorem pyStrip_eq_empty_iff (s : String) :
    pyStrip s = "" ↔ ∀ ch ∈ s.data, pyWhite ch := by
  constructor
  · intro h
    have hdata : ((s.data.dropWhile pyWhite).reverse.dropWhile pyWhite).reverse = [] := by
      have := congrArg String.data h
      simpa [pyStrip] using this
    have h2 : (s.data.dropWhile pyWhite).reverse.dropWhile pyWhite = [] := by
      simpa using congrArg List.reverse hdata
    have h3 : ∀ ch ∈ (s.data.dropWhile pyWhite).reverse, pyWhite ch :=
      List.dropWhile_eq_nil_iff.mp h2
    cases hl : s.data.dropWhile pyWhite with
    | nil =>
      intro ch hch
      exact List.dropWhile_eq_nil_iff.mp hl ch hch
    | cons x xs =>
      exfalso
      have hx : ¬ pyWhite x = true := by
        have := List.head?_dropWhile_not pyWhite s.data
        rw [hl] at this
        simpa using this
      exact hx (h3 x (by simp [hl, List.mem_reverse]))
  · intro h
    have : s.data.dropWhile pyWhite = [] := List.dropWhile_eq_nil_iff.mpr h
    simp [pyStrip, this]

theorem cleanWord_of_all_white {s : String} (h : ∀ ch ∈ s.data, pyWhite ch) :
    cleanWord s = s := by
  have : s.data.filter keepChar = s.data :=
    List.filter_eq_self.mpr (fun ch hch => by simp [keepChar, h ch hch])
  rw [cleanWord, this, string_mk_data]

theorem pyStrip_cleanWord_of_blank {s : String} (h : pyStrip s = "") :
    pyStrip (cleanWord s) = "" := by
  rw [cleanWord_of_all_white ((pyStrip_eq_empty_iff s).mp h)]
  exact h

/-- The degraded-path output, written as the spec describes it: chunk `i`
receives the interval `[i * per, (i+1) * per)` and chunks that are blank
after cleaning and stripping are dropped. -/
def degradedSpecCaptions (cp : Bool) (ws : List String) (per : ℚ) : List CaptionPair :=
  ws.enum.filterMap (fun p =>
    if pyStrip (if cp then p.2 else cleanWord p.2) = "" then none
    else
      some (((p.1 : ℚ) * per, ((p.1 : ℚ) + 1) * per),
        pyStrip (if cp then p.2 else cleanWord p.2)))

theorem degradedLoop_eq_spec (cp : Bool) (per : ℚ) :
    ∀ (ws : List String) (k : ℕ),
      degradedLoop cp per k ws =
        (List.enumFrom k ws).filterMap (fun p =>
          if pyStrip (if cp then p.2 else cleanWord p.2) = "" then none
          else
            some (((p.1 : ℚ) * per, ((p.1 : ℚ) + 1) * per),
              pyStrip (if cp then p.2 else cleanWord p.2))) := by
  intro ws
  induction ws with
  | nil =>
    intro k
    rfl
  | cons c rest ih =>
    intro k
    simp only [degradedLoop, List.enumFrom, List.filterMap]
    by_cases h1 : pyStrip c = ""
    · rw [if_pos h1]
      have hct : pyStrip (if cp then c else cleanWord c) = "" := by
        cases cp with
        | true => simpa using h1
        | false => simpa using pyStrip_cleanWord_of_blank h1
      rw [ih (k + 1)]
      simp [hct]
    · rw [if_neg h1]
      by_cases h2 : pyStrip (if cp then c else cleanWord c) = ""
      · rw [if_pos h2]
        rw [ih (k + 1)]
        simp [h2]
      · rw [if_neg h2]
        rw [ih (k + 1)]
        simp [h2]

theorem degradedLoop_ne_nil (cp : Bool) (per : ℚ) :
    ∀ (ws : List String) (k : ℕ),
      (∃ c ∈ ws, pyStrip (if cp then c else cleanWord c) ≠ "") →
      degradedLoop cp per k ws ≠ [] := by
  intro ws
  induction ws with
  | nil =>
    intro k h
    simp at h
  | cons c rest ih =>
    intro k ⟨c', hm, hc'⟩
    simp only [degradedLoop]
    by_cases h1 : pyStrip c = ""
    · rw [if_pos h1]
      rcases List.mem_cons.mp hm with he | he
      · subst he
        exfalso
        apply hc'
        cases cp with
        | true => simpa using h1
        | false => simpa using pyStrip_cleanWord_of_blank h1
      · exact ih (k + 1) ⟨c', he, hc'⟩
    · rw [if_neg h1]
      by_cases h2 : pyStrip (if cp then c else cleanWord c) = ""
      · rw [if_pos h2]
        rcases List.mem_cons.mp hm with he | he
        · subst he
          exact absurd h2 hc'
        · exact ih (k + 1) ⟨c', he, hc'⟩
      · rw [if_neg h2]
        simp

theorem getCaptionsWithTime_core_eq (wa : WhisperAnalysis) (m : ℕ) (cp : Bool)
    (t : String) (ht : wa.textKey = some t) (hb : pyStrip t ≠ "") :
    getCaptionsWithTime wa m cp = captionsCore wa m cp (pyStrip t) := by
  have ht' : ¬(wa.textKey = none ∧ wa.segmentsKey = none) := by simp [ht]
  have hb' : ¬(t = "" ∨ pyStrip t = "") := by
    rintro (rfl | h)
    · exact hb rfl
    · exact hb h
  simp only [getCaptionsWithTime, getCaptionsWithTimeBody, ht, if_neg ht']
  rw [if_neg hb']
  have hne : ¬((some t : Option String) = none ∧ wa.segmentsKey = none) := by simp
  rw [if_neg hne]

def exDots : String := "..."

def exWaC1 : WhisperAnalysis := ⟨some exDots, some [⟨some [], some 2⟩]⟩

/-- Counterexample to C1 as stated: the text `"..."` is non-empty and the
built index is empty (the lone segment has no words), yet the output is the
empty sequence — the only chunk cleans to the empty string and is dropped, so
no non-empty equal-width partition of `[0, totalDuration)` is returned. -/
theorem spec_C1_counterexample :
    pyStrip exDots ≠ "" ∧ getTimestampMapping exWaC1 = [] ∧
      getCaptionsWithTime exWaC1 15 false = [] :=
  ⟨by decide, by decide, by with_unfolding_all decide⟩

/-- Claim C1 as amended: on the degraded path the output is exactly the
chunks that survive cleaning, chunk `i` receiving `[i*per, (i+1)*per)` with
`per = totalDuration / numChunks` and `totalDuration` the last segment's
`end` when present and non-zero (else 10); the output is non-empty provided
at least one chunk survives cleaning. -/
theorem spec_C1_amended (wa : WhisperAnalysis) (m : ℕ) (cp : Bool) (t : String)
    (ht : wa.textKey = some t) (hb : pyStrip t ≠ "")
    (hd : getTimestampMapping wa = []) :
    getCaptionsWithTime wa m cp =
      degradedSpecCaptions cp (tokenizeText cp (pyStrip t) m)
        (durationPerCaption wa (tokenizeText cp (pyStrip t) m)) ∧
    ((∃ c ∈ tokenizeText cp (pyStrip t) m,
        pyStrip (if cp then c else cleanWord c) ≠ "") →
      getCaptionsWithTime wa m cp ≠ []) := by
  have hcore : getCaptionsWithTime wa m cp = captionsCore wa m cp (pyStrip t) :=
    getCaptionsWithTime_core_eq wa m cp t ht hb
  have hloop : captionsCore wa m cp (pyStrip t) =
      degradedLoop cp (durationPerCaption wa (tokenizeText cp (pyStrip t) m)) 0
        (tokenizeText cp (pyStrip t) m) := by
    simp only [captionsCore]
    rw [if_pos hd]
  constructor
  · rw [hcore, hloop, degradedSpecCaptions, List.enum]
    exact degradedLoop_eq_spec cp _ _ 0
  · intro hex
    rw [hcore, hloop]
    exact degradedLoop_ne_nil cp _ _ 0 hex

/-- Witness for the amended C1: a blank-index transcription with usable text
produces a non-empty degraded-path output. -/
theorem spec_C1_witness : getCaptionsWithTime exWaDeg 15 false ≠ [] :=
  (spec_C1_amended exWaDeg 15 false exHiThere rfl (by decide) (by decide)).2
    (by with_unfolding_all decide)

/-- Structural well-formedness of the built index, starting at cursor `c`:
each entry's range starts exactly at the cursor, is non-degenerate, and the
next entry's range starts right after it plus the one-space separator.  This
is how `getTimestampMapping` lays ranges out (C6). -/
def WFfrom : ℕ → List IndexEntry → Prop
  | _, [] => True
  | c, ent :: rest => ent.1.1 = c ∧ c < ent.1.2 ∧ WFfrom (ent.1.2 + 1) rest

/-- The cursor value after laying out `l` from cursor `c`. -/
def nextCursor (c : ℕ) (l : List IndexEntry) : ℕ :=
  match l.getLast? with
  | some ent => ent.1.2 + 1
  | none => c

theorem nextCursor_cons (c : ℕ) (x : IndexEntry) (l : List IndexEntry) :
    nextCursor c (x :: l) = nextCursor (x.1.2 + 1) l := by
  cases l with
  | nil => rfl
  | cons y ys =>
    obtain ⟨z, hz⟩ : ∃ z, (y :: ys).getLast? = some z := by
      cases h : (y :: ys).getLast? with
      | none => exact absurd (List.getLast?_eq_none_iff.mp h) (by simp)
      | some z => exact ⟨z, rfl⟩
    unfold nextCursor
    rw [List.getLast?_cons_cons, hz]

theorem nextCursor_append (c : ℕ) (l₁ l₂ : List IndexEntry) :
    nextCursor c (l₁ ++ l₂) = nextCursor (nextCursor c l₁) l₂ := by
  induction l₁ generalizing c with
  | nil => rfl
  | cons x xs ih => rw [List.cons_append, nextCursor_cons, nextCursor_cons, ih]

theorem WFfrom_append {c : ℕ} :
    ∀ {l₁ l₂ : List IndexEntry}, WFfrom c l₁ → WFfrom (nextCursor c l₁) l₂ →
      WFfrom c (l₁ ++ l₂) := by
  intro l₁
  induction l₁ generalizing c with
  | nil =>
    intro l₂ _ h2
    exact h2
  | cons x xs ih =>
    intro l₂ h1 h2
    obtain ⟨hx1, hx2, hxs⟩ := h1
    rw [nextCursor_cons] at h2
    exact ⟨hx1, hx2, ih hxs h2⟩

theorem recordWords_wf :
    ∀ (ws : List WordRec) (c : ℕ),
      WFfrom c (recordWords c ws).2 ∧
        (recordWords c ws).1 = nextCursor c (recordWords c ws).2 := by
  intro ws
  induction ws with
  | nil =>
    intro c
    exact ⟨trivial, rfl⟩
  | cons w ws ih =>
    intro c
    cases hdict : w.isDict with
    | false =>
      simpa only [recordWords, hdict, Bool.not_false, if_true] using ih c
    | true =>
      simp only [recordWords, hdict, Bool.not_true, Bool.false_eq_true, if_false]
      cases hwdt : wordDisplayText w with
      | none => exact ih c
      | some wt =>
        dsimp only
        by_cases hwt : wt = ""
        · rw [if_pos hwt]
          exact ih c
        · rw [if_neg hwt]
          cases hs : w.startKey with
          | none => exact ih c
          | some a =>
            cases he : w.endKey with
            | none => exact ih c
            | some b =>
              dsimp only
              have hlen : 0 < wt.length := length_pos_of_ne_empty hwt
              obtain ⟨ihwf, ihcur⟩ := ih (c + wt.length + 1)
              refine ⟨⟨rfl, by simpa using (Nat.lt_add_of_pos_right hlen : c < c + wt.length), ?_⟩, ?_⟩
              · simpa using ihwf
              · rw [nextCursor_cons]
                simpa using ihcur

theorem processSegments_wf :
    ∀ (segs : List Segment) (c : ℕ), WFfrom c (processSegments c segs) := by
  intro segs
  induction segs with
  | nil =>
    intro c
    trivial
  | cons seg rest ih =>
    intro c
    simp only [processSegments]
    cases hw : seg.wordsKey with
    | none => exact ih c
    | some ws =>
      cases ws with
      | nil => exact ih c
      | cons w ws' =>
        obtain ⟨hwf, hcur⟩ := recordWords_wf (w :: ws') c
        exact WFfrom_append hwf (hcur ▸ ih (recordWords c (w :: ws')).1)

theorem mapping_wf (wa : WhisperAnalysis) : WFfrom 0 (getTimestampMapping wa) := by
  unfold getTimestampMapping
  cases wa.segmentsKey with
  | none => trivial
  | some segs => exact processSegments_wf segs 0

theorem WFfrom_lb :
    ∀ (l : List IndexEntry) (c : ℕ), WFfrom c l →
      ∀ ent ∈ l, c ≤ ent.1.1 ∧ ent.1.1 < ent.1.2 := by
  intro l
  induction l with
  | nil =>
    intro c _ ent h
    simp at h
  | cons x xs ih =>
    intro c hwf ent h
    obtain ⟨hx1, hx2, hxs⟩ := hwf
    rcases List.mem_cons.mp h with he | he
    · subst he
      omega
    · have := ih (x.1.2 + 1) hxs ent he
      omega

/-- Boolean test: the entry's range starts at or before `p`. -/
def startLE (p : ℕ) (ent : IndexEntry) : Bool := decide (ent.1.1 ≤ p)

/-- Boolean test: the entry's range ends at or before `p`. -/
def endLE (p : ℕ) (ent : IndexEntry) : Bool := decide (ent.1.2 ≤ p)

theorem exists_getLast?_of_ne_nil {α : Type} {l : List α} (h : l ≠ []) :
    ∃ z, l.getLast? = some z := by
  cases hg : l.getLast? with
  | none => exact absurd (List.getLast?_eq_none_iff.mp hg) h
  | some z => exact ⟨z, rfl⟩

theorem getLast?_cons_eq {α : Type} (x : α) (l : List α) :
    (x :: l).getLast? =
      (match l.getLast? with
        | some y => some y
        | none => some x) := by
  cases l with
  | nil => rfl
  | cons y ys =>
    obtain ⟨z, hz⟩ := exists_getLast?_of_ne_nil (List.cons_ne_nil y ys)
    rw [List.getLast?_cons_cons, hz]

theorem filter_start_nil {p : ℕ} :
    ∀ (l : List IndexEntry) (c : ℕ), WFfrom c l → p < c → l.filter (startLE p) = [] := by
  intro l c hwf hp
  refine List.filter_eq_nil_iff.mpr ?_
  intro ent hm
  have := WFfrom_lb l c hwf ent hm
  simp only [startLE, decide_eq_true_eq]
  omega

theorem firstContaining_none_of_lt {p : ℕ} :
    ∀ (l : List IndexEntry) (c : ℕ), WFfrom c l → p < c → firstContaining p l = none := by
  intro l c hwf hp
  refine (firstContaining_eq_none_iff p l).mpr ?_
  intro ent hm
  have := WFfrom_lb l c hwf ent hm
  omega

theorem closestTimeLoop_const {p : ℕ} {st : String} :
    ∀ (l : List IndexEntry) (c : ℕ) (md : Option ℕ) (cl : Option ℚ),
      WFfrom c l → p < c → closestTimeLoop p st l md cl = cl := by
  intro l
  induction l with
  | nil =>
    intro c md cl _ _
    rfl
  | cons x xs ih =>
    intro c md cl hwf hp
    obtain ⟨hx1, hx2, hwf'⟩ := hwf
    have hq : ¬(x.1.2 ≤ p) := by omega
    simp only [closestTimeLoop, if_neg hq]
    exact ih (x.1.2 + 1) md cl hwf' (by omega)

/-- On a well-formed suffix whose qualifying entries all beat the incoming
best distance, the nearest-preceding loop returns the field of the last
qualifying entry, or the incoming `closest` when none qualifies. -/
theorem closestTimeLoop_wf (p : ℕ) (st : String) :
    ∀ (l : List IndexEntry) (c : ℕ) (md : Option ℕ) (cl : Option ℚ), WFfrom c l →
      (∀ ent ∈ l, ent.1.2 ≤ p → ∀ m, md = some m → p - ent.1.2 < m) →
      closestTimeLoop p st l md cl =
        (match (l.filter (endLE p)).getLast? with
          | some ent => tsGet ent.2 st
          | none => cl) := by
  intro l
  induction l with
  | nil =>
    intro c md cl _ _
    rfl
  | cons x xs ih =>
    intro c md cl hwf hboost
    obtain ⟨hx1, hx2, hwf'⟩ := hwf
    by_cases hq : x.1.2 ≤ p
    · have hstep : closestTimeLoop p st (x :: xs) md cl =
          closestTimeLoop p st xs (some (p - x.1.2)) (tsGet x.2 st) := by
        cases md with
        | none => simp [closestTimeLoop, hq]
        | some m =>
          have hm := hboost x (List.mem_cons_self x xs) hq m rfl
          simp [closestTimeLoop, hq, hm]
      have hboost' : ∀ ent ∈ xs, ent.1.2 ≤ p → ∀ m,
          (some (p - x.1.2) : Option ℕ) = some m → p - ent.1.2 < m := by
        intro ent hm hq' m hm'
        cases hm'
        have := WFfrom_lb xs (x.1.2 + 1) hwf' ent hm
        omega
      rw [hstep, ih (x.1.2 + 1) (some (p - x.1.2)) (tsGet x.2 st) hwf' hboost']
      have hfx : (x :: xs).filter (endLE p) = x :: xs.filter (endLE p) :=
        List.filter_cons_of_pos (by simpa [endLE] using hq)
      rw [hfx, getLast?_cons_eq]
      cases hlast : (xs.filter (endLE p)).getLast? <;> rfl
    · have hstep : closestTimeLoop p st (x :: xs) md cl =
          closestTimeLoop p st xs md cl := by
        simp only [closestTimeLoop, if_neg hq]
      have hfx : (x :: xs).filter (endLE p) = xs.filter (endLE p) :=
        List.filter_cons_of_neg (by simpa [endLE] using hq)
      rw [hstep, hfx, ih (x.1.2 + 1) md cl hwf'
        (fun ent hm => hboost ent (List.mem_cons_of_mem x hm))]

/-- Characterization of the interpolator over a well-formed index: the result
is the requested field of the last recorded range starting at or before the
position, and `none` when there is no such range. -/
theorem interp_char (p : ℕ) (st : String) :
    ∀ (l : List IndexEntry) (c : ℕ), WFfrom c l →
      interpolateTimeFromDict p l st =
        (match (l.filter (startLE p)).getLast? with
          | some ent => tsGet ent.2 st
          | none => none) := by
  intro l
  induction l with
  | nil =>
    intro c _
    rfl
  | cons x xs ih =>
    intro c hwf
    obtain ⟨hx1, hx2, hwf'⟩ := hwf
    have hne : (x :: xs) ≠ [] := List.cons_ne_nil x xs
    by_cases hc1 : x.1.1 ≤ p ∧ p < x.1.2
    · have hfilx : xs.filter (startLE p) = [] :=
        filter_start_nil xs (x.1.2 + 1) hwf' (by omega)
      have hfc : firstContaining p (x :: xs) = some x.2 := by
        simp only [firstContaining, if_pos hc1]
      rw [interpolateTimeFromDict, if_neg hne, hfc,
        List.filter_cons_of_pos (by simpa [startLE] using hc1.1), hfilx]
      rfl
    · by_cases hP : x.1.1 ≤ p
      · have hQ : x.1.2 ≤ p := by
          rcases Nat.lt_or_ge p x.1.2 with h | h
          · exact absurd ⟨hP, h⟩ hc1
          · exact h
        have hfcx : firstContaining p (x :: xs) = firstContaining p xs := by
          simp only [firstContaining, if_neg hc1]
        have hfilter_cons : (x :: xs).filter (startLE p) = x :: xs.filter (startLE p) :=
          List.filter_cons_of_pos (by simpa [startLE] using hP)
        cases xs with
        | nil =>
          have hfc : firstContaining p [x] = none := by
            simp [firstContaining, hc1]
          rw [interpolateTimeFromDict, if_neg hne, hfc]
          have hfil : [x].filter (startLE p) = [x] :=
            List.filter_cons_of_pos (by simpa [startLE] using hP)
          rw [hfil]
          simp [closestTimeLoop, hQ]
        | cons y ys =>
          by_cases hpe : p < x.1.2 + 1
          · have hfcxs : firstContaining p (y :: ys) = none :=
              firstContaining_none_of_lt (y :: ys) (x.1.2 + 1) hwf' hpe
            have hfilxs : (y :: ys).filter (startLE p) = [] :=
              filter_start_nil (y :: ys) (x.1.2 + 1) hwf' hpe
            rw [interpolateTimeFromDict, if_neg hne, hfcx, hfcxs]
            have hloop : closestTimeLoop p st (x :: y :: ys) none none =
                closestTimeLoop p st (y :: ys) (some (p - x.1.2)) (tsGet x.2 st) := by
              simp [closestTimeLoop, hQ]
            rw [hloop, closestTimeLoop_const (y :: ys) (x.1.2 + 1) _ _ hwf' hpe]
            rw [hfilter_cons, hfilxs]
            rfl
          · have hge : x.1.2 + 1 ≤ p := by omega
            have hy1 : y.1.1 = x.1.2 + 1 := hwf'.1
            have hymem : y ∈ (y :: ys).filter (startLE p) := by
              simp [startLE, List.mem_filter, hy1]
              omega
            obtain ⟨z, hz⟩ := exists_getLast?_of_ne_nil (List.ne_nil_of_mem hymem)
            have hRHS : ((x :: y :: ys).filter (startLE p)).getLast? = some z := by
              rw [hfilter_cons, getLast?_cons_eq, hz]
            have hIH := ih (x.1.2 + 1) hwf'
            cases hfc : firstContaining p (y :: ys) with
            | some ts =>
              have hLHS : interpolateTimeFromDict p (x :: y :: ys) st = tsGet ts st := by
                rw [interpolateTimeFromDict, if_neg hne, hfcx, hfc]
              have hxs : interpolateTimeFromDict p (y :: ys) st = tsGet ts st := by
                rw [interpolateTimeFromDict, if_neg (List.cons_ne_nil y ys), hfc]
              rw [hLHS, hRHS, ← hxs, hIH, hz]
            | none =>
              have hnocont : ∀ ent ∈ (y :: ys), ¬(ent.1.1 ≤ p ∧ p < ent.1.2) :=
                (firstContaining_eq_none_iff p (y :: ys)).mp hfc
              have hfeq : (y :: ys).filter (endLE p) = (y :: ys).filter (startLE p) := by
                apply List.filter_congr
                intro ent hm
                have hlb := WFfrom_lb (y :: ys) (x.1.2 + 1) hwf' ent hm
                have hnc := hnocont ent hm
                simp only [endLE, startLE]
                apply decide_eq_decide.mpr
                omega
              have hLHS : interpolateTimeFromDict p (x :: y :: ys) st =
                  closestTimeLoop p st (y :: ys) (some (p - x.1.2)) (tsGet x.2 st) := by
                rw [interpolateTimeFromDict, if_neg hne, hfcx, hfc]
                simp [closestTimeLoop, hQ]
              have hboost' : ∀ ent ∈ (y :: ys), ent.1.2 ≤ p → ∀ m,
                  (some (p - x.1.2) : Option ℕ) = some m → p - ent.1.2 < m := by
                intro ent hm hq' m hm'
                cases hm'
                have := WFfrom_lb (y :: ys) (x.1.2 + 1) hwf' ent hm
                omega
              rw [hLHS, closestTimeLoop_wf p st (y :: ys) (x.1.2 + 1)
                (some (p - x.1.2)) (tsGet x.2 st) hwf' hboost', hfeq, hz, hRHS]
      · have hplt : p < x.1.1 := Nat.lt_of_not_le hP
        have hfcx : firstContaining p (x :: xs) = none := by
          simp only [firstContaining, if_neg hc1]
          exact firstContaining_none_of_lt xs (x.1.2 + 1) hwf' (by omega)
        have hq : ¬(x.1.2 ≤ p) := by omega
        rw [interpolateTimeFromDict, if_neg hne, hfcx]
        simp only [closestTimeLoop, if_neg hq]
        rw [closestTimeLoop_const xs (x.1.2 + 1) _ _ hwf' (by omega)]
        rw [List.filter_cons_of_neg (by simpa [startLE] using hP),
          filter_start_nil xs (x.1.2 + 1) hwf' (by omega)]
        rfl

theorem tsGet_end (ts : WordTimes) : tsGet ts "end" = some ts.«end» := rfl

theorem interp_end_some (p : ℕ) (l : List IndexEntry)
    (hwf : WFfrom 0 l) (hne : l ≠ []) :
    ∃ ent ∈ l, interpolateTimeFromDict p l "end" = some ent.2.«end» := by
  obtain ⟨x, xs, rfl⟩ : ∃ x xs, l = x :: xs := by
    cases l with
    | nil => exact absurd rfl hne
    | cons x xs => exact ⟨x, xs, rfl⟩
  have hx1 : x.1.1 = 0 := hwf.1
  have hxmem : x ∈ (x :: xs).filter (startLE p) := by
    simp [startLE, List.mem_filter, hx1]
  obtain ⟨z, hz⟩ := exists_getLast?_of_ne_nil (List.ne_nil_of_mem hxmem)
  have hzmem : z ∈ x :: xs :=
    List.mem_of_mem_filter (List.mem_of_getLast?_eq_some hz)
  refine ⟨z, hzmem, ?_⟩
  rw [interp_char p "end" (x :: xs) 0 hwf, hz]
  exact tsGet_end z.2

theorem lastMember_le (P Q : IndexEntry → Bool) :
    ∀ (l : List IndexEntry),
      List.Pairwise (fun a b : IndexEntry => a.2.«end» ≤ b.2.«end») l →
      (∀ x ∈ l, P x = true → Q x = true) →
      ∀ a b, (l.filter P).getLast? = some a → (l.filter Q).getLast? = some b →
        a.2.«end» ≤ b.2.«end» := by
  intro l
  induction l with
  | nil =>
    intro _ _ a b ha _
    simp at ha
  | cons x xs ih =>
    intro hpw hPQ a b ha hb
    obtain ⟨hx, hpw'⟩ := List.pairwise_cons.mp hpw
    have hPQ' : ∀ y ∈ xs, P y = true → Q y = true :=
      fun y hy => hPQ y (List.mem_cons_of_mem x hy)
    by_cases hP : P x = true
    · have hQ : Q x = true := hPQ x (List.mem_cons_self x xs) hP
      rw [List.filter_cons_of_pos hP, getLast?_cons_eq] at ha
      rw [List.filter_cons_of_pos hQ, getLast?_cons_eq] at hb
      cases hfP : (xs.filter P).getLast? with
      | none =>
        rw [hfP] at ha
        have hax : a = x := by simpa using ha.symm
        subst hax
        cases hfQ : (xs.filter Q).getLast? with
        | none =>
          rw [hfQ] at hb
          have hbx : b = a := by simpa using hb.symm
          subst hbx
          exact le_rfl
        | some b' =>
          rw [hfQ] at hb
          have hbb : b = b' := by simpa using hb.symm
          subst hbb
          exact hx b (List.mem_of_mem_filter (List.mem_of_getLast?_eq_some hfQ))
      | some a' =>
        rw [hfP] at ha
        have haa : a = a' := by simpa using ha.symm
        subst haa
        have haP : a ∈ xs.filter P := List.mem_of_getLast?_eq_some hfP
        have haQ : a ∈ xs.filter Q := by
          rw [List.mem_filter] at haP ⊢
          exact ⟨haP.1, hPQ' a haP.1 haP.2⟩
        obtain ⟨z, hz⟩ := exists_getLast?_of_ne_nil (List.ne_nil_of_mem haQ)
        rw [hz] at hb
        have hbz : b = z := by simpa using hb.symm
        subst hbz
        exact ih hpw' hPQ' a b hfP hz
    · rw [List.filter_cons_of_neg hP] at ha
      by_cases hQ : Q x = true
      · rw [List.filter_cons_of_pos hQ, getLast?_cons_eq] at hb
        have haP : a ∈ xs.filter P := List.mem_of_getLast?_eq_some ha
        have haQ : a ∈ xs.filter Q := by
          rw [List.mem_filter] at haP ⊢
          exact ⟨haP.1, hPQ' a haP.1 haP.2⟩
        obtain ⟨z, hz⟩ := exists_getLast?_of_ne_nil (List.ne_nil_of_mem haQ)
        rw [hz] at hb
        have hbz : b = z := by simpa using hb.symm
        subst hbz
        exact ih hpw' hPQ' a b ha hz
      · rw [List.filter_cons_of_neg hQ] at hb
        exact ih hpw' hPQ' a b ha hb

theorem interp_mono (l : List IndexEntry) (hwf : WFfrom 0 l)
    (hpw : List.Pairwise (fun a b : IndexEntry => a.2.«end» ≤ b.2.«end») l)
    (p q : ℕ) (hpq : p ≤ q) (v w : ℚ)
    (hv : interpolateTimeFromDict p l "end" = some v)
    (hw : interpolateTimeFromDict q l "end" = some w) : v ≤ w := by
  have hcv := interp_char p "end" l 0 hwf
  have hcw := interp_char q "end" l 0 hwf
  rw [hv] at hcv
  rw [hw] at hcw
  cases hfp : (l.filter (startLE p)).getLast? with
  | none =>
    rw [hfp] at hcv
    simp at hcv
  | some a =>
    cases hfq : (l.filter (startLE q)).getLast? with
    | none =>
      rw [hfq] at hcw
      simp at hcw
    | some b =>
      rw [hfp] at hcv
      rw [hfq] at hcw
      simp only [tsGet_end, Option.some.injEq] at hcv hcw
      have hva : v = a.2.«end» := hcv
      have hwb : w = b.2.«end» := hcw
      subst hva
      subst hwb
      refine lastMember_le (startLE p) (startLE q) l hpw ?_ a b hfp hfq
      intro x _ hx
      simp only [startLE, decide_eq_true_eq] at hx ⊢
      omega

theorem chainEnds_concat (e : ℚ) (t : String) :
    ∀ (acc : List CaptionPair) (z s : ℚ),
      List.Chain' (fun a b : CaptionPair => a.1.2 ≤ b.1.2) acc →
      lastEndD z acc = s → s ≤ e →
      List.Chain' (fun a b : CaptionPair => a.1.2 ≤ b.1.2) (acc ++ [((s, e), t)]) := by
  intro acc z s hch hl hse
  rw [List.chain'_append]
  refine ⟨hch, List.chain'_singleton _, ?_⟩
  intro a ha y hy
  simp only [List.head?_cons, Option.mem_def, Option.some.injEq] at hy
  subst hy
  have : lastEndD z acc = a.1.2 := by
    simp only [lastEndD, Option.mem_def.mp ha]
  rw [this] at hl
  simpa using hl ▸ hse

/-- Invariant of the normal-path loop over an index with non-negative,
non-decreasing end times: every emitted interval is ordered and consecutive
end times never decrease.  `s` is either still the initial 0 or the value
the interpolator returned at an earlier position. -/
theorem normalLoop_inv (d : List IndexEntry) (cp : Bool)
    (hwf : WFfrom 0 d) (hne : d ≠ [])
    (hpw : List.Pairwise (fun a b : IndexEntry => a.2.«end» ≤ b.2.«end») d)
    (hnn : ∀ ent ∈ d, 0 ≤ ent.2.«end») :
    ∀ (chunks : List String) (k : ℕ), k ≠ 0 →
      ∀ (pos : ℕ) (s : ℚ) (acc : List CaptionPair),
        (∀ ent ∈ acc, ent.1.1 ≤ ent.1.2) →
        List.Chain' (fun a b : CaptionPair => a.1.2 ≤ b.1.2) acc →
        lastEndD 0 acc = s →
        0 ≤ s →
        (s = 0 ∨ ∃ p₀, p₀ ≤ pos ∧ interpolateTimeFromDict p₀ d "end" = some s) →
        (∀ ent ∈ normalLoop d cp (List.enumFrom k chunks) pos s acc,
            ent.1.1 ≤ ent.1.2) ∧
          List.Chain' (fun a b : CaptionPair => a.1.2 ≤ b.1.2)
            (normalLoop d cp (List.enumFrom k chunks) pos s acc) := by
  intro chunks
  induction chunks with
  | nil =>
    intro k _ pos s acc hacc hch _ _ _
    exact ⟨hacc, hch⟩
  | cons c0 rest ih =>
    intro k hk pos s acc hacc hch hlast hs0 hkey
    rw [List.enumFrom_cons]
    simp only [normalLoop]
    by_cases h1 : pyStrip c0 = ""
    · rw [if_pos h1]
      exact ih (k + 1) (Nat.succ_ne_zero k) pos s acc hacc hch hlast hs0 hkey
    · rw [if_neg h1, if_neg hk]
      obtain ⟨ent, hentm, hv⟩ :=
        interp_end_some (pos + (pyStrip c0).length + 1) d hwf hne
      rw [hv]
      have hsle : s ≤ ent.2.«end» := by
        rcases hkey with hs | ⟨p₀, hp₀, hsv⟩
        · rw [hs]
          exact hnn ent hentm
        · exact interp_mono d hwf hpw p₀ (pos + (pyStrip c0).length + 1)
            (by omega) s ent.2.«end» hsv hv
      by_cases h2 : pyStrip (if cp then pyStrip c0 else cleanWord (pyStrip c0)) = ""
      · rw [if_pos h2]
        refine ih (k + 1) (Nat.succ_ne_zero k) _ s acc hacc hch hlast hs0 ?_
        rcases hkey with hs | ⟨p₀, hp₀, hsv⟩
        · exact Or.inl hs
        · exact Or.inr ⟨p₀, by omega, hsv⟩
      · rw [if_neg h2]
        refine ih (k + 1) (Nat.succ_ne_zero k) _ ent.2.«end»
          (acc ++ [((s, ent.2.«end»),
            pyStrip (if cp then pyStrip c0 else cleanWord (pyStrip c0)))]) ?_ ?_ ?_ ?_ ?_
        · intro e he
          rcases List.mem_append.mp he with hl | hr
          · exact hacc e hl
          · rw [List.mem_singleton.mp hr]
            exact hsle
        · exact chainEnds_concat ent.2.«end» _ acc 0 s hch hlast hsle
        · exact lastEndD_concat 0 acc _
        · exact hnn ent hentm
        · exact Or.inr ⟨pos + (pyStrip c0).length + 1, le_rfl, hv⟩

theorem degradedLoop_inv (cp : Bool) (per : ℚ) (hper : 0 ≤ per) :
    ∀ (ws : List String) (k : ℕ),
      (∀ ent ∈ degradedLoop cp per k ws,
          ent.1.1 ≤ ent.1.2 ∧ ((k : ℚ) + 1) * per ≤ ent.1.2) ∧
        List.Chain' (fun a b : CaptionPair => a.1.2 ≤ b.1.2)
          (degradedLoop cp per k ws) := by
  intro ws
  induction ws with
  | nil =>
    intro k
    exact ⟨by simp [degradedLoop], by simp [degradedLoop]⟩
  | cons c rest ih =>
    intro k
    have hstepk : ((k : ℚ) + 1) * per ≤ (((k : ℚ) + 1) + 1) * per :=
      mul_le_mul_of_nonneg_right (by linarith) hper
    have hcast : (((k + 1 : ℕ) : ℚ)) = (k : ℚ) + 1 := by push_cast; ring
    simp only [degradedLoop]
    by_cases h1 : pyStrip c = ""
    · rw [if_pos h1]
      obtain ⟨hb, hc⟩ := ih (k + 1)
      refine ⟨?_, hc⟩
      intro ent he
      obtain ⟨h1', h2'⟩ := hb ent he
      rw [hcast] at h2'
      exact ⟨h1', le_trans hstepk h2'⟩
    · rw [if_neg h1]
      by_cases h2 : pyStrip (if cp then c else cleanWord c) = ""
      · rw [if_pos h2]
        obtain ⟨hb, hc⟩ := ih (k + 1)
        refine ⟨?_, hc⟩
        intro ent he
        obtain ⟨h1', h2'⟩ := hb ent he
        rw [hcast] at h2'
        exact ⟨h1', le_trans hstepk h2'⟩
      · rw [if_neg h2]
        obtain ⟨hb, hc⟩ := ih (k + 1)
        have hhead : (k : ℚ) * per ≤ ((k : ℚ) + 1) * per :=
          mul_le_mul_of_nonneg_right (by linarith) hper
        refine ⟨?_, ?_⟩
        · intro ent he
          rcases List.mem_cons.mp he with he | he
          · rw [he]
            exact ⟨hhead, le_rfl⟩
          · obtain ⟨h1', h2'⟩ := hb ent he
            rw [hcast] at h2'
            exact ⟨h1', le_trans hstepk h2'⟩
        · rw [List.chain'_cons']
          refine ⟨?_, hc⟩
          intro y hy
          have hym : y ∈ degradedLoop cp per (k + 1) rest :=
            List.mem_of_mem_head? hy
          obtain ⟨_, h2'⟩ := hb y hym
          rw [hcast] at h2'
          exact le_trans hstepk h2'

def exA12 : String := "aaaaaaaaaaaa"

def exB12 : String := "bbbbbbbbbbbb"

def exABtext : String := "aaaaaaaaaaaa bbbbbbbbbbbb"

def exWaC2 : WhisperAnalysis :=
  ⟨some exABtext,
    some [⟨some [⟨true, some exA12, none, some 0, some 5⟩,
      ⟨true, some exB12, none, some 1, some 2⟩], some 2⟩]⟩

/-- Counterexample to C2 as stated: with word end-times that decrease in
recording order (5 then 2) — an input the function accepts — the second
emitted entry is `((5, 2), …)`, whose start exceeds its end, and the entry
ends 5, 2 decrease. -/
theorem spec_C2_counterexample :
    getCaptionsWithTime exWaC2 15 false = [((0, 5), exA12), ((5, 2), exB12)] ∧
      ¬ (∀ ent ∈ getCaptionsWithTime exWaC2 15 false, ent.1.1 ≤ ent.1.2) := by
  constructor
  · with_unfolding_all decide
  · with_unfolding_all decide

/-- Claim C2 as amended: when the recorded end-times are non-negative and
non-decreasing in index order and segment end-times are non-negative, every
entry satisfies `start ≤ end` and entry end-times are non-decreasing. -/
theorem spec_C2_amended (wa : WhisperAnalysis) (m : ℕ) (cp : Bool)
    (H1 : List.Chain' (· ≤ ·)
      ((getTimestampMapping wa).map (fun ent => ent.2.«end»)))
    (H2 : ∀ ent ∈ getTimestampMapping wa, 0 ≤ ent.2.«end»)
    (H3 : ∀ seg ∈ wa.segmentsKey.getD [], ∀ e, seg.endKey = some e → 0 ≤ e) :
    (∀ ent ∈ getCaptionsWithTime wa m cp, ent.1.1 ≤ ent.1.2) ∧
      List.Chain' (fun a b : CaptionPair => a.1.2 ≤ b.1.2)
        (getCaptionsWithTime wa m cp) := by
  rcases getCaptionsWithTime_cases wa m cp with h0 | ⟨t, ht, hb, heq⟩
  · rw [h0]
    exact ⟨by simp, by simp⟩
  · rw [heq]
    simp only [captionsCore]
    by_cases hd : getTimestampMapping wa = []
    · rw [if_pos hd]
      have htot : 0 ≤ totalDurationOf wa := by
        unfold totalDurationOf
        cases hlast : (wa.segmentsKey.getD []).getLast? with
        | none =>
          simp only [hlast]
          norm_num
        | some lastSeg =>
          simp only [hlast]
          cases hend : lastSeg.endKey with
          | none =>
            simp only [hend]
            norm_num
          | some e =>
            simp only [hend]
            by_cases he0 : e = 0
            · rw [if_pos he0]
              norm_num
            · rw [if_neg he0]
              exact H3 lastSeg (List.mem_of_getLast?_eq_some hlast) e hend
      have hper : 0 ≤ durationPerCaption wa (tokenizeText cp (pyStrip t) m) := by
        unfold durationPerCaption
        split
        · exact div_nonneg htot (by positivity)
        · norm_num
      obtain ⟨hb', hc'⟩ :=
        degradedLoop_inv cp _ hper (tokenizeText cp (pyStrip t) m) 0
      exact ⟨fun ent he => (hb' ent he).1, hc'⟩
    · rw [if_neg hd]
      have hwf := mapping_wf wa
      have hpw : List.Pairwise (fun a b : IndexEntry => a.2.«end» ≤ b.2.«end»)
          (getTimestampMapping wa) :=
        List.pairwise_map.mp (List.chain'_iff_pairwise.mp H1)
      cases hws : tokenizeText cp (pyStrip t) m with
      | nil => exact ⟨by simp [normalLoop, List.enum, List.enumFrom], by
          simp [normalLoop, List.enum, List.enumFrom]⟩
      | cons c0 rest =>
        have henum : (c0 :: rest).enum = (0, c0) :: List.enumFrom 1 rest := rfl
        rw [henum]
        simp only [normalLoop]
        by_cases h1 : pyStrip c0 = ""
        · rw [if_pos h1]
          exact normalLoop_inv (getTimestampMapping wa) cp hwf hd hpw H2 rest 1
            one_ne_zero 0 0 [] (by simp) trivial rfl le_rfl (Or.inl rfl)
        · rw [if_neg h1]
          simp only [if_true]
          obtain ⟨ent, hentm, hv⟩ :=
            interp_end_some (pyStrip c0).length (getTimestampMapping wa) hwf hd
          rw [hv]
          have h0le : (0 : ℚ) ≤ ent.2.«end» := H2 ent hentm
          by_cases h2 : pyStrip (if cp then pyStrip c0 else cleanWord (pyStrip c0)) = ""
          · rw [if_pos h2]
            exact normalLoop_inv (getTimestampMapping wa) cp hwf hd hpw H2 rest 1
              one_ne_zero (pyStrip c0).length 0 [] (by simp) trivial rfl le_rfl
              (Or.inl rfl)
          · rw [if_neg h2]
            refine normalLoop_inv (getTimestampMapping wa) cp hwf hd hpw H2 rest 1
              one_ne_zero (pyStrip c0).length ent.2.«end» _ ?_ ?_ ?_ h0le ?_
            · intro e he
              rcases List.mem_append.mp he with hl | hr
              · simp at hl
              · rw [List.mem_singleton.mp hr]
                exact h0le
            · simp only [List.nil_append]
              exact List.chain'_singleton _
            · simp only [List.nil_append]
              rfl
            · exact Or.inr ⟨(pyStrip c0).length, le_rfl, hv⟩

/-- Witness for the amended C2 at a concrete two-word transcription with
non-decreasing, non-negative times. -/
theorem spec_C2_witness :
    (∀ ent ∈ getCaptionsWithTime exWaHW 15 false, ent.1.1 ≤ ent.1.2) ∧
      List.Chain' (fun a b : CaptionPair => a.1.2 ≤ b.1.2)
        (getCaptionsWithTime exWaHW 15 false) :=
  spec_C2_amended exWaHW 15 false
    (by
      have hmap : (getTimestampMapping exWaHW).map (fun ent => ent.2.«end») =
          [ (1 : ℚ), 2 ] := by with_unfolding_all decide
      rw [hmap]
      exact List.chain'_cons.mpr ⟨by norm_num, List.chain'_singleton _⟩)
    (by with_unfolding_all decide) (by with_unfolding_all decide)
